import Mathlib

/-! Shallow embedding of the caption pipeline of `src/app.py`: the
timestamp formatter, the colour/style encoder, the caption chunk
assembler (segment mode and word mode), the translation fallback, the
cache-pairing decision, and the ffmpeg filter-string builder.
Python floats are modelled as rationals; Python's `int()` truncation is
`pyInt`; fallible calls are modelled with `Option`. -/

namespace AppPy

attribute [local semireducible] Rat.sub Rat.add Rat.mul Rat.inv

/-- Python `int(q)`: truncation toward zero. -/
def pyInt (q : ℚ) : ℤ := if q < 0 then -⌊-q⌋ else ⌊q⌋

/-- Python `str.strip()` restricted to ASCII whitespace: drop
whitespace from both ends (the texts this pipeline strips only carry
ASCII spaces). -/
def pyStrip (s : String) : String :=
  String.mk (((s.toList.dropWhile Char.isWhitespace).reverse.dropWhile
    Char.isWhitespace).reverse)

/-- Python `str.upper()` restricted to ASCII: uppercase each letter
(the only letters reaching it here are hexadecimal digits). -/
def pyUpper (s : String) : String := String.mk (s.toList.map Char.toUpper)

/-- Python `str.zfill`: left-pad with `'0'` to width `w`
(the call sites below never pass a signed string). -/
def zfill (w : ℕ) (s : String) : String :=
  String.mk (List.replicate (w - s.length) '0' ++ s.toList)

/-- Python `f"{n:0wd}"`: decimal rendering of an integer, zero-padded
to total width `w`, zeros inserted after the sign. -/
def pyFmtInt (w : ℕ) (n : ℤ) : String :=
  if n < 0 then "-" ++ zfill (w - 1) (Nat.repr (-n).toNat) else zfill w (Nat.repr n.toNat)

/-- Lowercase hexadecimal digits of a natural number. -/
def lowHexStr (n : ℕ) : String := String.mk (Nat.toDigits 16 n)

/-- Python `hex(n)`: `0x`-marked lowercase hexadecimal with sign. -/
def pyHex (n : ℤ) : String :=
  if n < 0 then "-0x" ++ lowHexStr (-n).toNat else "0x" ++ lowHexStr n.toNat

/-- The alpha component computed by `hex_to_ass` for a given opacity:
`hex(int(255 - opacity / 100 * 255))[2:].zfill(2).upper()`. -/
def assAlpha (opacity : ℚ) : String :=
  pyUpper (zfill 2 (String.mk ((pyHex (pyInt (255 - opacity / 100 * 255))).toList.drop 2)))

/-- `hex_to_ass` of `src/app.py` (lines 51-55): strip leading `#`,
slice the three colour components, compute the alpha channel from the
opacity, and pack as `&H` alpha, blue, green, red. -/
def hex_to_ass (hexCode : String) (opacity : ℚ) : String :=
  let code := hexCode.toList.dropWhile fun c => c = '#'
  let r := String.mk (code.take 2)
  let g := String.mk ((code.drop 2).take 2)
  let b := String.mk ((code.drop 4).take 2)
  "&H" ++ assAlpha opacity ++ b ++ g ++ r

/-- Whether a string is exactly 6 hexadecimal digits after stripping
leading `#` markers. -/
def validHex6 (hexCode : String) : Bool :=
  let code := hexCode.toList.dropWhile fun c => c = '#'
  code.length = 6 && code.all fun c =>
    c.isDigit || ('a' ≤ c && c ≤ 'f') || ('A' ≤ c && c ≤ 'F')

/-- Modelled from the spec: the spec's §4.2 validation sentence
("fails with `InvalidColor` if the string is not exactly 6 hex digits
after stripping the leading marker") — a validating wrapper that is
absent from `src/app.py`, whose `hex_to_ass` performs no validation. -/
def hexToAssChecked (hexCode : String) (opacity : ℚ) : Option String :=
  if validHex6 hexCode then some (hex_to_ass hexCode opacity) else none

/-- `format_timestamp` of `src/app.py` (lines 57-63): `None` is
treated as `0.0`; `divmod` by 3600 and 60 (floor quotient, remainder
carrying the divisor's sign); milliseconds truncated, not rounded. -/
def format_timestamp (seconds : Option ℚ) : String :=
  let s := seconds.getD 0
  let hours : ℤ := ⌊s / 3600⌋
  let remainder : ℚ := s - 3600 * hours
  let minutes : ℤ := ⌊remainder / 60⌋
  let secs : ℚ := remainder - 60 * minutes
  let millis : ℤ := pyInt ((secs - pyInt secs) * 1000)
  pyFmtInt 2 hours ++ ":" ++ pyFmtInt 2 minutes ++ ":" ++
    pyFmtInt 2 (pyInt secs) ++ "," ++ pyFmtInt 3 millis

/-- Value of a decimal digit character. -/
def digitVal (c : Char) : ℕ := c.toNat - 48

/-- Decoder for the `HH:MM:SS,mmm` display format: succeeds exactly on
strings matching the pattern, returning the represented second count. -/
def decodeTimestamp (str : String) : Option ℚ :=
  match str.data with
  | [h1, h2, c1, m1, m2, c2, p1, p2, c3, d1, d2, d3] =>
    if c1 = ':' ∧ c2 = ':' ∧ c3 = ',' ∧
        h1.isDigit ∧ h2.isDigit ∧ m1.isDigit ∧ m2.isDigit ∧
        p1.isDigit ∧ p2.isDigit ∧ d1.isDigit ∧ d2.isDigit ∧ d3.isDigit then
      some ((3600 * (10 * digitVal h1 + digitVal h2) +
          60 * (10 * digitVal m1 + digitVal m2) +
          (10 * digitVal p1 + digitVal p2) : ℕ) +
        ((100 * digitVal d1 + 10 * digitVal d2 + digitVal d3 : ℕ) : ℚ) / 1000)
    else none
  | _ => none

/-- A word token of the MMS word-timestamp output: text plus an
optional `(start, end)` alignment, either bound possibly missing. -/
structure WordToken where
  text : String
  start : Option ℚ
  stop : Option ℚ
deriving DecidableEq

/-- The `current_chunk` accumulator of the word-mode loop:
`{"text": ..., "start": ..., "end": ...}`, start and end `None`
initially. -/
structure Chunk where
  text : String
  start : Option ℚ
  stop : Option ℚ

/-- One emitted caption cue: SRT index, start, end, text. -/
structure Cue where
  index : ℕ
  start : ℚ
  stop : ℚ
  text : String
deriving DecidableEq

/-- The translation interception applied to `final_text` before each
emission (lines 265-269 and 280-284 of `src/app.py`): only when the
task is translate and the text is non-empty is the translator called,
and a failing call (`none`) falls back to the original text. -/
def applyTranslation (tr : String → Option String) (translateTask : Bool)
    (text : String) : String :=
  if translateTask ∧ text ≠ "" then
    match tr text with
    | some t => t
    | none => text
  else text

/-- The word-mode chunk-assembly loop of `src/app.py` (lines 244-287):
tokens with a missing bound are skipped; an unopened chunk is seeded by
the token; an open chunk is extended while `end - chunk.start ≤ 3.0`,
otherwise emitted (translation applied to the stripped text) and a new
chunk is seeded; a still-open chunk is emitted after the pass.  The end
of an emitted cue is `chunk.end` with `None` rendered as `0.0`, exactly
as `format_timestamp` would. -/
def chunkLoop (tr : String → Option String) (translateTask : Bool) :
    List WordToken → ℕ → Chunk → List Cue
  | [], idx, c =>
    match c.start with
    | none => []
    | some cs => [⟨idx, cs, c.stop.getD 0, applyTranslation tr translateTask (pyStrip c.text)⟩]
  | t :: rest, idx, c =>
    match t.start, t.stop with
    | some s, some e =>
      match c.start with
      | none => chunkLoop tr translateTask rest idx ⟨t.text, some s, some e⟩
      | some cs =>
        if e - cs ≤ 3 then
          chunkLoop tr translateTask rest idx ⟨pyStrip (c.text ++ " " ++ t.text), some cs, some e⟩
        else
          ⟨idx, cs, c.stop.getD 0, applyTranslation tr translateTask (pyStrip c.text)⟩ ::
            chunkLoop tr translateTask rest (idx + 1) ⟨t.text, some s, some e⟩
    | _, _ => chunkLoop tr translateTask rest idx c

/-- Word-mode assembly: run the chunk loop from SRT index 1 with an
empty accumulator. -/
def assembleWords (tr : String → Option String) (translateTask : Bool)
    (toks : List WordToken) : List Cue :=
  chunkLoop tr translateTask toks 1 ⟨"", none, none⟩

/-- A segment of the whisper output: text with mandatory bounds. -/
structure Segment where
  text : String
  start : ℚ
  stop : ℚ
deriving DecidableEq

/-- The segment-mode serialization loop of `src/app.py`
(lines 313-317): `enumerate(segments, start=1)`, text stripped,
bounds copied verbatim, nothing filtered. -/
def segLoop (i : ℕ) : List Segment → List Cue
  | [] => []
  | s :: rest => ⟨i, s.start, s.stop, pyStrip s.text⟩ :: segLoop (i + 1) rest

/-- Segment-mode assembly, indices starting at 1. -/
def assembleSegments (segs : List Segment) : List Cue := segLoop 1 segs

/-- The cache-skip decision of `src/app.py` (line 217): the generation
block runs unless the subtitle file and the transcript file both
already exist. -/
def cacheSkip (srtExists txtExists : Bool) : Bool := srtExists && txtExists

/-- Effect of the guarded generation block on the pair of outputs: a
skip leaves the files alone, otherwise both are (re)written together
(lines 238 and 313 open both files for writing). -/
def runGeneration (srtExists txtExists : Bool) : Bool × Bool :=
  if cacheSkip srtExists txtExists then (srtExists, txtExists) else (true, true)

/-- Python `str.replace` for a single-character pattern: every
occurrence of `pat` becomes `sub`. -/
def pyReplaceChar (pat : Char) (sub : List Char) : List Char → List Char
  | [] => []
  | c :: cs => (if c = pat then sub else [c]) ++ pyReplaceChar pat sub cs

/-- The watermark escaping of `src/app.py` (line 344):
`watermark_text.replace("'", "\\'").replace(":", "\\:")`. -/
def escapeWatermark (s : String) : String :=
  String.mk (pyReplaceChar ':' ['\\', ':'] (pyReplaceChar '\'' ['\\', '\''] s.toList))

/-- The scale fragment chosen from the export resolution
(lines 324-330). -/
def scaleFilter (exportRes : String) : String :=
  if exportRes = "1080p" then "scale=-2:1080,"
  else if exportRes = "720p (Recommended)" then "scale=-2:720,"
  else if exportRes = "480p" then "scale=-2:480,"
  else ""

/-- The `force_style` payload built at lines 332-339. -/
def buildStyle (fontFamily : String) (fontSize : ℕ) (primary outline back : String)
    (borderStyle strokeWidth shadowWidth : ℕ) : String :=
  "FontName=" ++ fontFamily ++ ",Fontsize=" ++ toString fontSize ++
    ",PrimaryColour=" ++ primary ++ ",OutlineColour=" ++ outline ++
    ",BackColour=" ++ back ++ ",BorderStyle=" ++ toString borderStyle ++
    ",Outline=" ++ toString strokeWidth ++ ",Shadow=" ++ toString shadowWidth ++
    ",Alignment=2"

/-- The `vf_string` construction of `src/app.py` (lines 341-346).  The
watermark opacity is interpolated by Python's float formatting, which
is abstracted here as the already-rendered string `wmOpacity`; no claim
constrains its decimal form. -/
def buildVf (scale srtPath style wmText wmOpacity : String) (wmSize : ℕ) : String :=
  let vf := scale ++ "subtitles=" ++ srtPath ++ ":force_style='" ++ style ++ "'"
  if wmText = "" then vf
  else vf ++ ",drawtext=text='" ++ escapeWatermark wmText ++ "':fontcolor=white@" ++
    wmOpacity ++ ":fontsize=" ++ toString wmSize ++ ":x=w-tw-20:y=20"

/-- The timed tokens of a word list, in order: the `(start, end)`
pairs of the tokens that the loop does not skip. -/
def timedList (toks : List WordToken) : List (ℚ × ℚ) :=
  toks.filterMap fun t =>
    match t.start, t.stop with
    | some s, some e => some (s, e)
    | _, _ => none

/-- Tokens whose timestamps are strictly increasing and spaced one
second apart starting at `a`: token `i` runs from `a + i` to
`a + i + 1`. -/
def oneSecSpaced (a : ℚ) (toks : List WordToken) : Prop :=
  ∀ i, i < toks.length →
    (toks.getD i ⟨"", none, none⟩).start = some (a + i) ∧
    (toks.getD i ⟨"", none, none⟩).stop = some (a + i + 1)

/-- `n` concrete tokens at one-second spacing with no gaps. -/
def oneSecToks (n : ℕ) : List WordToken :=
  (List.range n).map fun i => ⟨"w", some (i : ℚ), some ((i : ℚ) + 1)⟩

instance (a : ℚ) (toks : List WordToken) : Decidable (oneSecSpaced a toks) := by
  unfold oneSecSpaced; infer_instance

/-- A translator whose every call fails, standing for a translation
service that raises on each request. -/
def noTranslator : String → Option String := fun _ => none

/-- The per-character effect of the two sequential `replace` calls of
the watermark escaping. -/
def escBlock (c : Char) : List Char :=
  if c = '\'' then ['\\', '\''] else if c = ':' then ['\\', ':'] else [c]

/-- Tokens whose timed ends are non-decreasing but whose second start
jumps backwards: a counterexample input for cue-start monotonicity. -/
def backJumpToks : List WordToken := [⟨"a", some 5, some 6⟩, ⟨"b", some 0, some 9⟩]

/-! Step equations of the word-mode loop. -/

theorem chunkLoop_nil_none (tr : String → Option String) (task : Bool) (idx : ℕ)
    (txt : String) (sp : Option ℚ) :
    chunkLoop tr task [] idx ⟨txt, none, sp⟩ = [] := rfl

theorem chunkLoop_nil_some (tr : String → Option String) (task : Bool) (idx : ℕ)
    (txt : String) (cs : ℚ) (sp : Option ℚ) :
    chunkLoop tr task [] idx ⟨txt, some cs, sp⟩ =
      [⟨idx, cs, sp.getD 0, applyTranslation tr task (pyStrip txt)⟩] := rfl

theorem chunkLoop_cons_skip (tr : String → Option String) (task : Bool)
    (t : WordToken) (ht : t.start = none ∨ t.stop = none)
    (rest : List WordToken) (idx : ℕ) (c : Chunk) :
    chunkLoop tr task (t :: rest) idx c = chunkLoop tr task rest idx c := by
  obtain ⟨w, st, sp⟩ := t
  cases st with
  | none => rfl
  | some s =>
    cases sp with
    | none => rfl
    | some e => rcases ht with h | h <;> simp at h

theorem chunkLoop_cons_open (tr : String → Option String) (task : Bool)
    (w : String) (s e : ℚ) (rest : List WordToken) (idx : ℕ)
    (txt : String) (sp : Option ℚ) :
    chunkLoop tr task (⟨w, some s, some e⟩ :: rest) idx ⟨txt, none, sp⟩ =
      chunkLoop tr task rest idx ⟨w, some s, some e⟩ := rfl

theorem chunkLoop_cons_extend (tr : String → Option String) (task : Bool)
    (w : String) (s e : ℚ) (rest : List WordToken) (idx : ℕ)
    (txt : String) (cs : ℚ) (sp : Option ℚ) (h : e - cs ≤ 3) :
    chunkLoop tr task (⟨w, some s, some e⟩ :: rest) idx ⟨txt, some cs, sp⟩ =
      chunkLoop tr task rest idx ⟨pyStrip (txt ++ " " ++ w), some cs, some e⟩ := by
  have step : chunkLoop tr task (⟨w, some s, some e⟩ :: rest) idx ⟨txt, some cs, sp⟩ =
      if e - cs ≤ 3 then
        chunkLoop tr task rest idx ⟨pyStrip (txt ++ " " ++ w), some cs, some e⟩
      else
        ⟨idx, cs, sp.getD 0, applyTranslation tr task (pyStrip txt)⟩ ::
          chunkLoop tr task rest (idx + 1) ⟨w, some s, some e⟩ := rfl
  rw [step, if_pos h]

theorem chunkLoop_cons_emit (tr : String → Option String) (task : Bool)
    (w : String) (s e : ℚ) (rest : List WordToken) (idx : ℕ)
    (txt : String) (cs : ℚ) (sp : Option ℚ) (h : ¬ e - cs ≤ 3) :
    chunkLoop tr task (⟨w, some s, some e⟩ :: rest) idx ⟨txt, some cs, sp⟩ =
      ⟨idx, cs, sp.getD 0, applyTranslation tr task (pyStrip txt)⟩ ::
        chunkLoop tr task rest (idx + 1) ⟨w, some s, some e⟩ := by
  have step : chunkLoop tr task (⟨w, some s, some e⟩ :: rest) idx ⟨txt, some cs, sp⟩ =
      if e - cs ≤ 3 then
        chunkLoop tr task rest idx ⟨pyStrip (txt ++ " " ++ w), some cs, some e⟩
      else
        ⟨idx, cs, sp.getD 0, applyTranslation tr task (pyStrip txt)⟩ ::
          chunkLoop tr task rest (idx + 1) ⟨w, some s, some e⟩ := rfl
  rw [step, if_neg h]

theorem chunkLoop_skipped_middle (tr : String → Option String) (task : Bool)
    (t : WordToken) (ht : t.start = none ∨ t.stop = none) (post : List WordToken) :
    ∀ pre idx c, chunkLoop tr task (pre ++ t :: post) idx c =
      chunkLoop tr task (pre ++ post) idx c := by
  intro pre
  induction pre with
  | nil => intro idx c; exact chunkLoop_cons_skip tr task t ht post idx c
  | cons p pre ih =>
    intro idx c
    obtain ⟨w, st, sp⟩ := p
    cases st with
    | none =>
      rw [List.cons_append, List.cons_append,
        chunkLoop_cons_skip tr task ⟨w, none, sp⟩ (Or.inl rfl),
        chunkLoop_cons_skip tr task ⟨w, none, sp⟩ (Or.inl rfl), ih]
    | some s =>
      cases sp with
      | none =>
        rw [List.cons_append, List.cons_append,
          chunkLoop_cons_skip tr task ⟨w, some s, none⟩ (Or.inr rfl),
          chunkLoop_cons_skip tr task ⟨w, some s, none⟩ (Or.inr rfl), ih]
      | some e =>
        obtain ⟨ctxt, cst, csp⟩ := c
        cases cst with
        | none =>
          rw [List.cons_append, List.cons_append, chunkLoop_cons_open,
            chunkLoop_cons_open, ih]
        | some cs =>
          by_cases hle : e - cs ≤ 3
          · rw [List.cons_append, List.cons_append,
              chunkLoop_cons_extend tr task w s e _ idx ctxt cs csp hle,
              chunkLoop_cons_extend tr task w s e _ idx ctxt cs csp hle, ih]
          · rw [List.cons_append, List.cons_append,
              chunkLoop_cons_emit tr task w s e _ idx ctxt cs csp hle,
              chunkLoop_cons_emit tr task w s e _ idx ctxt cs csp hle, ih]

theorem chunkLoop_all_skipped (tr : String → Option String) (task : Bool) :
    ∀ toks, (∀ t ∈ toks, t.start = none ∨ t.stop = none) →
      ∀ idx c, chunkLoop tr task toks idx c = chunkLoop tr task [] idx c := by
  intro toks
  induction toks with
  | nil => intro _ idx c; rfl
  | cons t rest ih =>
    intro h idx c
    rw [chunkLoop_cons_skip tr task t (h t (List.mem_cons_self t rest)) rest idx c,
      ih (fun u hu => h u (List.mem_cons_of_mem t hu)) idx c]

theorem chunkLoop_congr (tr₁ tr₂ : String → Option String) (task₁ task₂ : Bool)
    (h : ∀ s, applyTranslation tr₁ task₁ s = applyTranslation tr₂ task₂ s) :
    ∀ toks idx c, chunkLoop tr₁ task₁ toks idx c = chunkLoop tr₂ task₂ toks idx c := by
  intro toks
  induction toks with
  | nil =>
    intro idx c
    obtain ⟨ctxt, cst, csp⟩ := c
    cases cst with
    | none => rfl
    | some cs => rw [chunkLoop_nil_some, chunkLoop_nil_some, h]
  | cons t rest ih =>
    intro idx c
    obtain ⟨w, st, sp⟩ := t
    cases st with
    | none =>
      rw [chunkLoop_cons_skip tr₁ task₁ ⟨w, none, sp⟩ (Or.inl rfl),
        chunkLoop_cons_skip tr₂ task₂ ⟨w, none, sp⟩ (Or.inl rfl), ih]
    | some s =>
      cases sp with
      | none =>
        rw [chunkLoop_cons_skip tr₁ task₁ ⟨w, some s, none⟩ (Or.inr rfl),
          chunkLoop_cons_skip tr₂ task₂ ⟨w, some s, none⟩ (Or.inr rfl), ih]
      | some e =>
        obtain ⟨ctxt, cst, csp⟩ := c
        cases cst with
        | none => rw [chunkLoop_cons_open, chunkLoop_cons_open, ih]
        | some cs =>
          by_cases hle : e - cs ≤ 3
          · rw [chunkLoop_cons_extend tr₁ task₁ w s e _ idx ctxt cs csp hle,
              chunkLoop_cons_extend tr₂ task₂ w s e _ idx ctxt cs csp hle, ih]
          · rw [chunkLoop_cons_emit tr₁ task₁ w s e _ idx ctxt cs csp hle,
              chunkLoop_cons_emit tr₂ task₂ w s e _ idx ctxt cs csp hle, h, ih]

/-- C3: in word mode, a token with a null start or end is skipped
entirely — removing it from anywhere in the input leaves the emitted
cue sequence unchanged — and an input all of whose tokens are skipped
assembles to zero cues. -/
theorem null_timestamp_skip :
    (∀ (tr : String → Option String) (task : Bool) (pre post : List WordToken)
        (t : WordToken), t.start = none ∨ t.stop = none →
        assembleWords tr task (pre ++ t :: post) = assembleWords tr task (pre ++ post))
    ∧ (∀ (tr : String → Option String) (task : Bool) (toks : List WordToken),
        (∀ t ∈ toks, t.start = none ∨ t.stop = none) →
        assembleWords tr task toks = []) := by
  constructor
  · intro tr task pre post t ht
    exact chunkLoop_skipped_middle tr task t ht post pre 1 ⟨"", none, none⟩
  · intro tr task toks h
    exact chunkLoop_all_skipped tr task toks h 1 ⟨"", none, none⟩

theorem null_timestamp_skip_witness :
    assembleWords noTranslator false
        [⟨"w", some 0, some 1⟩, ⟨"x", none, some 1⟩, ⟨"y", some 1, some 2⟩] =
      assembleWords noTranslator false [⟨"w", some 0, some 1⟩, ⟨"y", some 1, some 2⟩] ∧
    assembleWords noTranslator false [⟨"x", none, some 1⟩] = [] :=
  ⟨null_timestamp_skip.1 noTranslator false [⟨"w", some 0, some 1⟩] [⟨"y", some 1, some 2⟩]
      ⟨"x", none, some 1⟩ (Or.inl rfl),
    null_timestamp_skip.2 noTranslator false [⟨"x", none, some 1⟩] (by decide)⟩

/-- C4: the translation interception touches a text only when the task
is translate and the text is non-empty; a failing translation call
falls back to the original text; and assembling with an always-failing
translator under the translate task yields exactly the cues of an
untranslated run — no translation failure escapes or aborts assembly. -/
theorem translation_fallback :
    (∀ (tr : String → Option String) (text : String),
        applyTranslation tr false text = text)
    ∧ (∀ tr : String → Option String, applyTranslation tr true "" = "")
    ∧ (∀ (tr : String → Option String) (text : String), tr text = none →
        applyTranslation tr true text = text)
    ∧ (∀ (tr : String → Option String) (toks : List WordToken),
        assembleWords noTranslator true toks = assembleWords tr false toks) := by
  refine ⟨?_, ?_, ?_, ?_⟩
  · intro tr text
    simp [applyTranslation]
  · intro tr
    simp [applyTranslation]
  · intro tr text h
    by_cases hne : text = ""
    · simp [applyTranslation, hne]
    · simp [applyTranslation, hne, h]
  · intro tr toks
    refine chunkLoop_congr noTranslator tr true false ?_ toks 1 ⟨"", none, none⟩
    intro s
    by_cases hne : s = "" <;> simp [applyTranslation, hne, noTranslator]

theorem translation_fallback_witness :
    applyTranslation noTranslator true "hola" = "hola" ∧
    assembleWords noTranslator true [⟨"hola", some 0, some 1⟩] =
      assembleWords (fun s => some (s ++ "!")) false [⟨"hola", some 0, some 1⟩] :=
  ⟨translation_fallback.2.2.1 noTranslator "hola" rfl,
    translation_fallback.2.2.2 (fun s => some (s ++ "!")) [⟨"hola", some 0, some 1⟩]⟩

theorem chunkLoop_span (tr : String → Option String) (task : Bool) :
    ∀ toks idx c,
      (∀ t ∈ toks, ∀ s e : ℚ, t.start = some s → t.stop = some e → e - s ≤ 3) →
      (∀ cs : ℚ, c.start = some cs → ∃ ce, c.stop = some ce ∧ ce - cs ≤ 3) →
      ∀ cue ∈ chunkLoop tr task toks idx c, cue.stop - cue.start ≤ 3 := by
  intro toks
  induction toks with
  | nil =>
    intro idx c htok hc cue hcue
    obtain ⟨ctxt, cst, csp⟩ := c
    cases cst with
    | none =>
      rw [chunkLoop_nil_none] at hcue
      exact absurd hcue (List.not_mem_nil cue)
    | some cs =>
      obtain ⟨ce, hce, hle⟩ := hc cs rfl
      obtain rfl : csp = some ce := hce
      rw [chunkLoop_nil_some] at hcue
      rw [List.mem_singleton] at hcue
      subst hcue
      simpa using hle
  | cons t rest ih =>
    intro idx c htok hc cue hcue
    have htok' : ∀ u ∈ rest, ∀ s e : ℚ, u.start = some s → u.stop = some e → e - s ≤ 3 :=
      fun u hu => htok u (List.mem_cons_of_mem t hu)
    obtain ⟨w, st, sp⟩ := t
    cases st with
    | none =>
      rw [chunkLoop_cons_skip tr task ⟨w, none, sp⟩ (Or.inl rfl)] at hcue
      exact ih idx c htok' hc cue hcue
    | some s =>
      cases sp with
      | none =>
        rw [chunkLoop_cons_skip tr task ⟨w, some s, none⟩ (Or.inr rfl)] at hcue
        exact ih idx c htok' hc cue hcue
      | some e =>
        have hspan : e - s ≤ 3 :=
          htok ⟨w, some s, some e⟩ (List.mem_cons_self _ _) s e rfl rfl
        obtain ⟨ctxt, cst, csp⟩ := c
        cases cst with
        | none =>
          rw [chunkLoop_cons_open] at hcue
          refine ih idx _ htok' ?_ cue hcue
          intro cs h
          obtain rfl : s = cs := by simpa using h
          exact ⟨e, rfl, hspan⟩
        | some cs =>
          by_cases hle : e - cs ≤ 3
          · rw [chunkLoop_cons_extend tr task w s e rest idx ctxt cs csp hle] at hcue
            refine ih idx _ htok' ?_ cue hcue
            intro cs' h
            obtain rfl : cs = cs' := by simpa using h
            exact ⟨e, rfl, hle⟩
          · rw [chunkLoop_cons_emit tr task w s e rest idx ctxt cs csp hle] at hcue
            rcases List.mem_cons.mp hcue with rfl | hmem
            · obtain ⟨ce, hce, hle'⟩ := hc cs rfl
              obtain rfl : csp = some ce := hce
              simpa using hle'
            · refine ih (idx + 1) _ htok' ?_ cue hmem
              intro cs' h
              obtain rfl : s = cs' := by simpa using h
              exact ⟨e, rfl, hspan⟩

/-- C1: in word mode a fully-timed token extends the open cue exactly
when `token.end - open.start ≤ 3.0` and otherwise the open cue is
emitted and a fresh cue is seeded with the token; consequently, on
one-second-spaced strictly increasing tokens no emitted cue spans more
than 3 seconds from its own start, and 10 gap-free such tokens yield at
least 3 cues. -/
theorem word_mode_three_second_cap :
    (∀ (tr : String → Option String) (task : Bool) (w : String) (s e : ℚ)
        (rest : List WordToken) (idx : ℕ) (txt : String) (cs ce : ℚ),
        (e - cs ≤ 3 →
          chunkLoop tr task (⟨w, some s, some e⟩ :: rest) idx ⟨txt, some cs, some ce⟩ =
            chunkLoop tr task rest idx ⟨pyStrip (txt ++ " " ++ w), some cs, some e⟩) ∧
        (¬ e - cs ≤ 3 →
          chunkLoop tr task (⟨w, some s, some e⟩ :: rest) idx ⟨txt, some cs, some ce⟩ =
            ⟨idx, cs, ce, applyTranslation tr task (pyStrip txt)⟩ ::
              chunkLoop tr task rest (idx + 1) ⟨w, some s, some e⟩))
    ∧ (∀ (tr : String → Option String) (task : Bool) (a : ℚ) (toks : List WordToken),
        oneSecSpaced a toks →
        ∀ cue ∈ assembleWords tr task toks, cue.stop - cue.start ≤ 3)
    ∧ 3 ≤ (assembleWords noTranslator false (oneSecToks 10)).length := by
  refine ⟨?_, ?_, by decide⟩
  · intro tr task w s e rest idx txt cs ce
    constructor
    · intro h
      exact chunkLoop_cons_extend tr task w s e rest idx txt cs (some ce) h
    · intro h
      simpa using chunkLoop_cons_emit tr task w s e rest idx txt cs (some ce) h
  · intro tr task a toks hsp
    refine chunkLoop_span tr task toks 1 ⟨"", none, none⟩ ?_ ?_
    · intro t ht s e hs he
      obtain ⟨⟨i, hi⟩, rfl⟩ := List.mem_iff_get.mp ht
      have h := hsp i hi
      rw [List.getD_eq_get toks ⟨"", none, none⟩ hi] at h
      rw [h.1] at hs
      rw [h.2] at he
      obtain rfl : a + i = s := by simpa using hs
      obtain rfl : a + i + 1 = e := by simpa using he
      linarith
    · intro cs h
      simp at h

theorem word_mode_three_second_cap_witness :
    chunkLoop noTranslator false [⟨"b", some 1, some 2⟩] 1 ⟨"a", some 0, some 1⟩ =
      chunkLoop noTranslator false [] 1 ⟨pyStrip ("a" ++ " " ++ "b"), some 0, some 2⟩ ∧
    chunkLoop noTranslator false [⟨"c", some 4, some 5⟩] 1 ⟨"a", some 0, some 1⟩ =
      ⟨1, 0, 1, applyTranslation noTranslator false (pyStrip "a")⟩ ::
        chunkLoop noTranslator false [] 2 ⟨"c", some 4, some 5⟩ ∧
    (⟨1, 0, 3, "w w w"⟩ : Cue).stop - (⟨1, 0, 3, "w w w"⟩ : Cue).start ≤ 3 :=
  ⟨(word_mode_three_second_cap.1 noTranslator false "b" 1 2 [] 1 "a" 0 1).1 (by norm_num),
    (word_mode_three_second_cap.1 noTranslator false "c" 4 5 [] 1 "a" 0 1).2 (by norm_num),
    word_mode_three_second_cap.2.1 noTranslator false 0 (oneSecToks 10) (by decide)
      ⟨1, 0, 3, "w w w"⟩ (by decide)⟩

theorem segLoop_length : ∀ (segs : List Segment) (i : ℕ),
    (segLoop i segs).length = segs.length := by
  intro segs
  induction segs with
  | nil => intro i; rfl
  | cons s rest ih => intro i; simp [segLoop, ih]

theorem segLoop_getElem? : ∀ (segs : List Segment) (i k : ℕ),
    (segLoop i segs)[k]? =
      segs[k]?.map fun s => (⟨i + k, s.start, s.stop, pyStrip s.text⟩ : Cue) := by
  intro segs
  induction segs with
  | nil => intro i k; simp [segLoop]
  | cons s rest ih =>
    intro i k
    cases k with
    | zero => simp [segLoop]
    | succ k =>
      have harr : i + 1 + k = i + (k + 1) := by omega
      simp only [segLoop, List.getElem?_cons_succ, ih (i + 1) k, harr]

/-- C2: in segment mode, N input segments yield exactly N cues in
order with indices 1..N, start and end copied verbatim and text
stripped; a segment whose stripped text is empty still yields a cue. -/
theorem segment_mode_verbatim :
    ∀ segs : List Segment,
      (assembleSegments segs).length = segs.length ∧
      ∀ k (h : k < segs.length),
        (assembleSegments segs)[k]? =
          some ⟨k + 1, segs[k].start, segs[k].stop, pyStrip segs[k].text⟩ := by
  intro segs
  refine ⟨segLoop_length segs 1, ?_⟩
  intro k h
  have harr : 1 + k = k + 1 := Nat.add_comm 1 k
  rw [assembleSegments, segLoop_getElem? segs 1 k, List.getElem?_eq_getElem h]
  simp [harr]

theorem segment_mode_verbatim_witness :
    (assembleSegments [⟨"  ", 5, 6⟩]).length = 1 ∧
    (assembleSegments [⟨"  ", 5, 6⟩])[0]? = some ⟨1, 5, 6, ""⟩ := by
  refine ⟨(segment_mode_verbatim [⟨"  ", 5, 6⟩]).1, ?_⟩
  have h := (segment_mode_verbatim [⟨"  ", 5, 6⟩]).2 0 (by decide)
  rw [h]
  decide

/-- C7: the generation pipeline is skipped exactly when subtitle file
and transcript both exist; with exactly one present the check is a
miss and the block rewrites both files together. -/
theorem cache_pairing :
    ∀ srt txt : Bool,
      (cacheSkip srt txt = true ↔ srt = true ∧ txt = true) ∧
      (cacheSkip srt txt = false → runGeneration srt txt = (true, true)) ∧
      (cacheSkip srt txt = true → runGeneration srt txt = (srt, txt)) ∧
      cacheSkip true false = false ∧ cacheSkip false true = false := by decide

theorem cache_pairing_witness : runGeneration true false = (true, true) :=
  (cache_pairing true false).2.1 rfl

theorem timedList_nil : timedList [] = [] := rfl

theorem timedList_cons_timed (w : String) (s e : ℚ) (rest : List WordToken) :
    timedList (⟨w, some s, some e⟩ :: rest) = (s, e) :: timedList rest := rfl

theorem timedList_cons_skip (t : WordToken) (rest : List WordToken)
    (h : t.start = none ∨ t.stop = none) :
    timedList (t :: rest) = timedList rest := by
  obtain ⟨w, st, sp⟩ := t
  cases st with
  | none => rfl
  | some s =>
    cases sp with
    | none => rfl
    | some e => rcases h with h | h <;> simp at h

theorem chunkLoop_ordered (tr : String → Option String) (task : Bool) :
    ∀ toks idx (c : Chunk),
      (∀ p ∈ timedList toks, p.1 ≤ p.2) →
      List.Pairwise (· ≤ ·) ((timedList toks).map Prod.fst) →
      List.Pairwise (· ≤ ·) ((timedList toks).map Prod.snd) →
      (∀ cs : ℚ, c.start = some cs → ∃ ce : ℚ, c.stop = some ce ∧ cs ≤ ce ∧
        ∀ p ∈ timedList toks, cs ≤ p.1 ∧ ce ≤ p.2) →
      (∀ cue ∈ chunkLoop tr task toks idx c, cue.start ≤ cue.stop) ∧
      List.Pairwise (· ≤ ·) ((chunkLoop tr task toks idx c).map Cue.start) ∧
      (∀ cue ∈ chunkLoop tr task toks idx c,
        ((∃ cs : ℚ, c.start = some cs ∧ cue.start = cs) ∨
          ∃ p ∈ timedList toks, cue.start = p.1) ∧
        ((∃ ce : ℚ, c.stop = some ce ∧ cue.stop = ce) ∨
          ∃ p ∈ timedList toks, cue.stop = p.2)) := by
  intro toks
  induction toks with
  | nil =>
    intro idx c h1 h2 h3 hc
    obtain ⟨ctxt, cst, csp⟩ := c
    cases cst with
    | none => refine ⟨?_, ?_, ?_⟩ <;> simp [chunkLoop_nil_none]
    | some cs =>
      obtain ⟨ce, hce, hle, -⟩ := hc cs rfl
      obtain rfl : csp = some ce := hce
      refine ⟨?_, ?_, ?_⟩
      · intro cue hcue
        rw [chunkLoop_nil_some, List.mem_singleton] at hcue
        subst hcue
        simpa using hle
      · rw [chunkLoop_nil_some]
        simp
      · intro cue hcue
        rw [chunkLoop_nil_some, List.mem_singleton] at hcue
        subst hcue
        exact ⟨Or.inl ⟨cs, rfl, rfl⟩, Or.inl ⟨ce, rfl, rfl⟩⟩
  | cons t rest ih =>
    intro idx c h1 h2 h3 hc
    obtain ⟨w, st, sp⟩ := t
    cases st with
    | none =>
      have htl := timedList_cons_skip ⟨w, none, sp⟩ rest (Or.inl rfl)
      rw [htl] at h1 h2 h3 hc
      rw [chunkLoop_cons_skip tr task ⟨w, none, sp⟩ (Or.inl rfl) rest idx c, htl]
      exact ih idx c h1 h2 h3 hc
    | some s =>
      cases sp with
      | none =>
        have htl := timedList_cons_skip ⟨w, some s, none⟩ rest (Or.inr rfl)
        rw [htl] at h1 h2 h3 hc
        rw [chunkLoop_cons_skip tr task ⟨w, some s, none⟩ (Or.inr rfl) rest idx c, htl]
        exact ih idx c h1 h2 h3 hc
      | some e =>
        rw [timedList_cons_timed] at h1 h2 h3 hc ⊢
        simp only [List.map_cons] at h2 h3
        rw [List.pairwise_cons] at h2 h3
        obtain ⟨h2a, h2b⟩ := h2
        obtain ⟨h3a, h3b⟩ := h3
        have hse : s ≤ e := h1 (s, e) (List.mem_cons_self _ _)
        have h1' : ∀ p ∈ timedList rest, p.1 ≤ p.2 :=
          fun p hp => h1 p (List.mem_cons_of_mem _ hp)
        have hseed : ∀ cs0 : ℚ, (⟨w, some s, some e⟩ : Chunk).start = some cs0 →
            ∃ ce0 : ℚ, (⟨w, some s, some e⟩ : Chunk).stop = some ce0 ∧ cs0 ≤ ce0 ∧
              ∀ p ∈ timedList rest, cs0 ≤ p.1 ∧ ce0 ≤ p.2 := by
          intro cs0 h
          obtain rfl : s = cs0 := by simpa using h
          refine ⟨e, rfl, hse, ?_⟩
          intro p hp
          exact ⟨h2a p.1 (List.mem_map_of_mem Prod.fst hp),
            h3a p.2 (List.mem_map_of_mem Prod.snd hp)⟩
        obtain ⟨ctxt, cst, csp⟩ := c
        cases cst with
        | none =>
          rw [chunkLoop_cons_open]
          have IH := ih idx ⟨w, some s, some e⟩ h1' h2b h3b hseed
          refine ⟨IH.1, IH.2.1, ?_⟩
          intro cue hcue
          obtain ⟨pstart, pstop⟩ := IH.2.2 cue hcue
          constructor
          · rcases pstart with ⟨cs0, hcs0, heq⟩ | ⟨p, hp, hpe⟩
            · refine Or.inr ⟨(s, e), List.mem_cons_self _ _, ?_⟩
              obtain rfl : s = cs0 := by simpa using hcs0
              exact heq
            · exact Or.inr ⟨p, List.mem_cons_of_mem _ hp, hpe⟩
          · rcases pstop with ⟨ce0, hce0, heq⟩ | ⟨p, hp, hpe⟩
            · refine Or.inr ⟨(s, e), List.mem_cons_self _ _, ?_⟩
              obtain rfl : e = ce0 := by simpa using hce0
              exact heq
            · exact Or.inr ⟨p, List.mem_cons_of_mem _ hp, hpe⟩
        | some cs =>
          obtain ⟨ce, hce, hlece, hfut⟩ := hc cs rfl
          obtain rfl : csp = some ce := hce
          have hcs_s : cs ≤ s := (hfut (s, e) (List.mem_cons_self _ _)).1
          have hfut' : ∀ p ∈ timedList rest, cs ≤ p.1 ∧ ce ≤ p.2 :=
            fun p hp => hfut p (List.mem_cons_of_mem _ hp)
          by_cases hle : e - cs ≤ 3
          · rw [chunkLoop_cons_extend tr task w s e rest idx ctxt cs (some ce) hle]
            have hext : ∀ cs0 : ℚ,
                (⟨pyStrip (ctxt ++ " " ++ w), some cs, some e⟩ : Chunk).start = some cs0 →
                ∃ ce0 : ℚ,
                  (⟨pyStrip (ctxt ++ " " ++ w), some cs, some e⟩ : Chunk).stop = some ce0 ∧
                  cs0 ≤ ce0 ∧ ∀ p ∈ timedList rest, cs0 ≤ p.1 ∧ ce0 ≤ p.2 := by
              intro cs0 h
              obtain rfl : cs = cs0 := by simpa using h
              refine ⟨e, rfl, le_trans hcs_s hse, ?_⟩
              intro p hp
              exact ⟨(hfut' p hp).1, h3a p.2 (List.mem_map_of_mem Prod.snd hp)⟩
            have IH := ih idx ⟨pyStrip (ctxt ++ " " ++ w), some cs, some e⟩ h1' h2b h3b hext
            refine ⟨IH.1, IH.2.1, ?_⟩
            intro cue hcue
            obtain ⟨pstart, pstop⟩ := IH.2.2 cue hcue
            constructor
            · rcases pstart with ⟨cs0, hcs0, heq⟩ | ⟨p, hp, hpe⟩
              · refine Or.inl ⟨cs, rfl, ?_⟩
                obtain rfl : cs = cs0 := by simpa using hcs0
                exact heq
              · exact Or.inr ⟨p, List.mem_cons_of_mem _ hp, hpe⟩
            · rcases pstop with ⟨ce0, hce0, heq⟩ | ⟨p, hp, hpe⟩
              · refine Or.inr ⟨(s, e), List.mem_cons_self _ _, ?_⟩
                obtain rfl : e = ce0 := by simpa using hce0
                exact heq
              · exact Or.inr ⟨p, List.mem_cons_of_mem _ hp, hpe⟩
          · rw [chunkLoop_cons_emit tr task w s e rest idx ctxt cs (some ce) hle]
            have IH := ih (idx + 1) ⟨w, some s, some e⟩ h1' h2b h3b hseed
            refine ⟨?_, ?_, ?_⟩
            · intro cue hcue
              rcases List.mem_cons.mp hcue with rfl | hmem
              · simpa using hlece
              · exact IH.1 cue hmem
            · rw [List.map_cons, List.pairwise_cons]
              refine ⟨?_, IH.2.1⟩
              intro b hb
              rw [List.mem_map] at hb
              obtain ⟨cue, hcue, rfl⟩ := hb
              obtain ⟨pstart, -⟩ := IH.2.2 cue hcue
              rcases pstart with ⟨cs0, hcs0, heq⟩ | ⟨p, hp, hpe⟩
              · obtain rfl : s = cs0 := by simpa using hcs0
                rw [heq]
                exact hcs_s
              · rw [hpe]
                exact (hfut' p hp).1
            · intro cue hcue
              rcases List.mem_cons.mp hcue with rfl | hmem
              · exact ⟨Or.inl ⟨cs, rfl, rfl⟩, Or.inl ⟨ce, rfl, rfl⟩⟩
              · obtain ⟨pstart, pstop⟩ := IH.2.2 cue hmem
                constructor
                · rcases pstart with ⟨cs0, hcs0, heq⟩ | ⟨p, hp, hpe⟩
                  · refine Or.inr ⟨(s, e), List.mem_cons_self _ _, ?_⟩
                    obtain rfl : s = cs0 := by simpa using hcs0
                    exact heq
                  · exact Or.inr ⟨p, List.mem_cons_of_mem _ hp, hpe⟩
                · rcases pstop with ⟨ce0, hce0, heq⟩ | ⟨p, hp, hpe⟩
                  · refine Or.inr ⟨(s, e), List.mem_cons_self _ _, ?_⟩
                    obtain rfl : e = ce0 := by simpa using hce0
                    exact heq
                  · exact Or.inr ⟨p, List.mem_cons_of_mem _ hp, hpe⟩

/-- C10 counterexample: on `backJumpToks` every timed token has
`start ≤ end` and the timed end timestamps are non-decreasing, yet the
emitted cue starts are `[5, 0]` — not non-decreasing — refuting the
claim as stated. -/
theorem cue_order_counterexample :
    (∀ p ∈ timedList backJumpToks, p.1 ≤ p.2) ∧
    List.Pairwise (· ≤ ·) ((timedList backJumpToks).map Prod.snd) ∧
    (assembleWords noTranslator false backJumpToks).map Cue.start = [5, 0] ∧
    ¬ List.Pairwise (· ≤ ·)
      ((assembleWords noTranslator false backJumpToks).map Cue.start) := by
  refine ⟨by decide, by decide, by decide, by decide⟩

theorem chunkLoop_groups_open (tr : String → Option String) (task : Bool) :
    ∀ (toks : List WordToken) (idx : ℕ) (txt : String) (cs ce : ℚ)
      (g : List (ℚ × ℚ)),
      (g.head?).map Prod.fst = some cs →
      (g.getLast?).map Prod.snd = some ce →
      ∃ groups : List (List (ℚ × ℚ)),
        groups.flatten = g ++ timedList toks ∧
        List.Forall₂ (fun (cue : Cue) (grp : List (ℚ × ℚ)) =>
          ∃ first last : ℚ × ℚ, grp.head? = some first ∧ grp.getLast? = some last ∧
            cue.start = first.1 ∧ cue.stop = last.2)
          (chunkLoop tr task toks idx ⟨txt, some cs, some ce⟩) groups := by
  intro toks
  induction toks with
  | nil =>
    intro idx txt cs ce g hhead hlast
    refine ⟨[g], by simp [timedList_nil], ?_⟩
    rw [chunkLoop_nil_some]
    obtain ⟨first, hf, hf1⟩ := Option.map_eq_some'.mp hhead
    obtain ⟨last, hl, hl1⟩ := Option.map_eq_some'.mp hlast
    exact List.Forall₂.cons
      ⟨first, last, hf, hl, hf1.symm, by simpa using hl1.symm⟩ List.Forall₂.nil
  | cons t rest ih =>
    intro idx txt cs ce g hhead hlast
    obtain ⟨w, st, tsp⟩ := t
    cases st with
    | none =>
      rw [chunkLoop_cons_skip tr task ⟨w, none, tsp⟩ (Or.inl rfl),
        timedList_cons_skip ⟨w, none, tsp⟩ rest (Or.inl rfl)]
      exact ih idx txt cs ce g hhead hlast
    | some s =>
      cases tsp with
      | none =>
        rw [chunkLoop_cons_skip tr task ⟨w, some s, none⟩ (Or.inr rfl),
          timedList_cons_skip ⟨w, some s, none⟩ rest (Or.inr rfl)]
        exact ih idx txt cs ce g hhead hlast
      | some e =>
        rw [timedList_cons_timed]
        by_cases hle : e - cs ≤ 3
        · rw [chunkLoop_cons_extend tr task w s e rest idx txt cs (some ce) hle]
          cases g with
          | nil => simp at hhead
          | cons a g' =>
            have hhead2 : (((a :: g') ++ [(s, e)]).head?).map Prod.fst = some cs :=
              hhead
            have hlast2 : (((a :: g') ++ [(s, e)]).getLast?).map Prod.snd = some e := by
              rw [List.getLast?_concat]
              rfl
            obtain ⟨groups, hjoin, hfa⟩ :=
              ih idx (pyStrip (txt ++ " " ++ w)) cs e ((a :: g') ++ [(s, e)]) hhead2 hlast2
            refine ⟨groups, ?_, hfa⟩
            rw [hjoin]
            simp
        · rw [chunkLoop_cons_emit tr task w s e rest idx txt cs (some ce) hle]
          obtain ⟨groups', hjoin', hfa'⟩ := ih (idx + 1) w s e [(s, e)] rfl rfl
          refine ⟨g :: groups', ?_, ?_⟩
          · simp [hjoin']
          · obtain ⟨first, hf, hf1⟩ := Option.map_eq_some'.mp hhead
            obtain ⟨last, hl, hl1⟩ := Option.map_eq_some'.mp hlast
            exact List.Forall₂.cons
              ⟨first, last, hf, hl, hf1.symm, by simpa using hl1.symm⟩ hfa'

theorem chunkLoop_groups_closed (tr : String → Option String) (task : Bool) :
    ∀ (toks : List WordToken) (idx : ℕ) (txt : String) (sp : Option ℚ),
      ∃ groups : List (List (ℚ × ℚ)),
        groups.flatten = timedList toks ∧
        List.Forall₂ (fun (cue : Cue) (grp : List (ℚ × ℚ)) =>
          ∃ first last : ℚ × ℚ, grp.head? = some first ∧ grp.getLast? = some last ∧
            cue.start = first.1 ∧ cue.stop = last.2)
          (chunkLoop tr task toks idx ⟨txt, none, sp⟩) groups := by
  intro toks
  induction toks with
  | nil =>
    intro idx txt sp
    refine ⟨[], by simp [timedList_nil], ?_⟩
    rw [chunkLoop_nil_none]
    exact List.Forall₂.nil
  | cons t rest ih =>
    intro idx txt sp
    obtain ⟨w, st, tsp⟩ := t
    cases st with
    | none =>
      rw [chunkLoop_cons_skip tr task ⟨w, none, tsp⟩ (Or.inl rfl),
        timedList_cons_skip ⟨w, none, tsp⟩ rest (Or.inl rfl)]
      exact ih idx txt sp
    | some s =>
      cases tsp with
      | none =>
        rw [chunkLoop_cons_skip tr task ⟨w, some s, none⟩ (Or.inr rfl),
          timedList_cons_skip ⟨w, some s, none⟩ rest (Or.inr rfl)]
        exact ih idx txt sp
      | some e =>
        rw [chunkLoop_cons_open, timedList_cons_timed]
        obtain ⟨groups, hjoin, hfa⟩ :=
          chunkLoop_groups_open tr task rest idx w s e [(s, e)] rfl rfl
        exact ⟨groups, by rw [hjoin]; rfl, hfa⟩

/-- C10 (amended): the emitted cues partition the timed (non-skipped)
tokens into consecutive non-empty groups in input order — each cue's
start equals the start timestamp of the first token accumulated into
it and its end equals the end timestamp of the last token accumulated
into it; consequently, for every input in which each non-skipped token
satisfies `start ≤ end` and the non-skipped tokens' start timestamps
and end timestamps are both non-decreasing, every emitted cue
satisfies `start ≤ end` and the emitted cues have non-decreasing start
times. -/
theorem cue_bounds_and_order :
    ∀ (tr : String → Option String) (task : Bool) (toks : List WordToken),
      (∃ groups : List (List (ℚ × ℚ)),
        groups.flatten = timedList toks ∧
        List.Forall₂ (fun (cue : Cue) (grp : List (ℚ × ℚ)) =>
          ∃ first last : ℚ × ℚ, grp.head? = some first ∧ grp.getLast? = some last ∧
            cue.start = first.1 ∧ cue.stop = last.2)
          (assembleWords tr task toks) groups) ∧
      ((∀ p ∈ timedList toks, p.1 ≤ p.2) →
        List.Pairwise (· ≤ ·) ((timedList toks).map Prod.fst) →
        List.Pairwise (· ≤ ·) ((timedList toks).map Prod.snd) →
        (∀ cue ∈ assembleWords tr task toks, cue.start ≤ cue.stop) ∧
        List.Pairwise (· ≤ ·) ((assembleWords tr task toks).map Cue.start)) := by
  intro tr task toks
  constructor
  · exact chunkLoop_groups_closed tr task toks 1 "" none
  · intro h1 h2 h3
    have H := chunkLoop_ordered tr task toks 1 ⟨"", none, none⟩ h1 h2 h3
      (by intro cs h; simp at h)
    exact ⟨H.1, H.2.1⟩

theorem cue_bounds_and_order_witness :
    List.Pairwise (· ≤ ·)
      ((assembleWords noTranslator false (oneSecToks 3)).map Cue.start) :=
  ((cue_bounds_and_order noTranslator false (oneSecToks 3)).2
    (by decide) (by decide) (by decide)).2

/-! Colour packing. -/

set_option maxRecDepth 4000 in
theorem hexRender_facts : ∀ k : ℕ, k < 256 →
    (pyUpper (zfill 2 (String.mk ((pyHex (k : ℤ)).toList.drop 2)))).length = 2 ∧
    ∀ c ∈ (pyUpper (zfill 2 (String.mk ((pyHex (k : ℤ)).toList.drop 2)))).toList,
      c.isDigit = true ∨ ('A' ≤ c ∧ c ≤ 'F') := by decide

theorem alphaInt_bounds (op : ℚ) (h0 : 0 ≤ op) (h1 : op ≤ 100) :
    0 ≤ pyInt (255 - op / 100 * 255) ∧ pyInt (255 - op / 100 * 255) ≤ 255 := by
  have h2 : op / 100 * 255 ≤ 255 := by
    have h3 : op / 100 ≤ 1 := by
      rw [div_le_one (by norm_num : (0:ℚ) < 100)]
      linarith
    nlinarith
  have h4 : 0 ≤ op / 100 * 255 := by positivity
  rw [pyInt, if_neg (by linarith : ¬ (255 - op / 100 * 255 : ℚ) < 0)]
  constructor
  · exact Int.floor_nonneg.mpr (by linarith)
  · have h5 := Int.floor_le_floor
      (show (255 - op / 100 * 255 : ℚ) ≤ (255 : ℚ) by linarith)
    have h6 : ⌊(255 : ℚ)⌋ = 255 := by norm_num
    rw [h6] at h5
    exact h5

theorem assAlpha_as_nat (op : ℚ) (h0 : 0 ≤ op) (h1 : op ≤ 100) :
    assAlpha op = pyUpper (zfill 2 (String.mk
      ((pyHex ((pyInt (255 - op / 100 * 255)).toNat : ℤ)).toList.drop 2))) := by
  rw [assAlpha, Int.toNat_of_nonneg (alphaInt_bounds op h0 h1).1]

theorem assAlpha_shape (op : ℚ) (h0 : 0 ≤ op) (h1 : op ≤ 100) :
    (assAlpha op).length = 2 ∧
    ∀ c ∈ (assAlpha op).toList, c.isDigit = true ∨ ('A' ≤ c ∧ c ≤ 'F') := by
  rw [assAlpha_as_nat op h0 h1]
  refine hexRender_facts (pyInt (255 - op / 100 * 255)).toNat ?_
  have h2 := (alphaInt_bounds op h0 h1).2
  omega

/-- C5 counterexample: at opacity 50 the code yields alpha `7F`
(truncation of 127.5), while `round((1 - 50/100) * 255) = 128` would
render as `80`, so the claimed alpha formula does not match the code. -/
theorem pack_color_round_counterexample :
    hex_to_ass "FFFFFF" 50 = "&H7FFFFFFF" ∧
    pyUpper (zfill 2 (String.mk
      ((pyHex (round ((1 - (50 : ℚ) / 100) * 255))).toList.drop 2))) = "80" ∧
    hex_to_ass "FFFFFF" 50 ≠
      "&H" ++ pyUpper (zfill 2 (String.mk
        ((pyHex (round ((1 - (50 : ℚ) / 100) * 255))).toList.drop 2))) ++
        "FF" ++ "FF" ++ "FF" :=
  ⟨by decide, by decide, by decide⟩

theorem hex_to_ass_unfold (code : String) (op : ℚ) :
    hex_to_ass code op =
      "&H" ++ assAlpha op ++
        String.mk (((code.toList.dropWhile fun c => c = '#').drop 4).take 2) ++
        String.mk (((code.toList.dropWhile fun c => c = '#').drop 2).take 2) ++
        String.mk ((code.toList.dropWhile fun c => c = '#').take 2) := rfl

/-- C5 (amended): for every input and opacity in [0,100] the encoder
returns `&H` followed by alpha, blue, green, red, where alpha is
`int((1 - opacity/100) * 255)` — truncated, not rounded — rendered as
2 uppercase hexadecimal digits; opacity 0 yields alpha `FF` and
opacity 100 yields alpha `00`. -/
theorem pack_color_trunc (op : ℚ) (h0 : 0 ≤ op) (h1 : op ≤ 100) (code : String) :
    hex_to_ass code op =
      "&H" ++ assAlpha op ++
        String.mk (((code.toList.dropWhile fun c => c = '#').drop 4).take 2) ++
        String.mk (((code.toList.dropWhile fun c => c = '#').drop 2).take 2) ++
        String.mk ((code.toList.dropWhile fun c => c = '#').take 2) ∧
    assAlpha op = pyUpper (zfill 2 (String.mk
      ((pyHex ⌊(1 - op / 100) * 255⌋).toList.drop 2))) ∧
    (assAlpha op).length = 2 ∧
    (∀ c ∈ (assAlpha op).toList, c.isDigit = true ∨ ('A' ≤ c ∧ c ≤ 'F')) ∧
    (op = 0 → assAlpha op = "FF") ∧
    (op = 100 → assAlpha op = "00") := by
  refine ⟨rfl, ?_, (assAlpha_shape op h0 h1).1, (assAlpha_shape op h0 h1).2, ?_, ?_⟩
  · have harg : (1 - op / 100) * 255 = 255 - op / 100 * 255 := by ring
    have hnn : ¬ (255 - op / 100 * 255 : ℚ) < 0 := by
      have h3 : op / 100 ≤ 1 := by
        rw [div_le_one (by norm_num : (0:ℚ) < 100)]
        linarith
      nlinarith
    rw [assAlpha, harg, pyInt, if_neg hnn]
  · intro h
    subst h
    decide
  · intro h
    subst h
    decide

theorem pack_color_trunc_witness : assAlpha 0 = "FF" :=
  (pack_color_trunc 0 (by norm_num) (by norm_num) "FFFFFF").2.2.2.2.1 rfl

/-- C6 counterexample: on the malformed input `"12"` (two characters,
not six hex digits) the code does not fail — it returns the packed
string `&H0012` — while the spec-modelled validating wrapper rejects
it, refuting the claimed `InvalidColor` failure. -/
theorem color_validation_counterexample :
    hexToAssChecked "12" 100 = none ∧ hex_to_ass "12" 100 = "&H0012" :=
  ⟨by decide, by decide⟩

/-- C6 (amended): the encoder performs no validation and never fails:
every input yields a string beginning with `&H`; an input that is
exactly 6 hex digits after stripping yields the full 10-character
packed colour; the spec-modelled validating wrapper succeeds exactly
on such inputs. -/
theorem color_encoder_total (code : String) (op : ℚ) (h0 : 0 ≤ op) (h1 : op ≤ 100) :
    (∃ rest, hex_to_ass code op = "&H" ++ rest) ∧
    (validHex6 code = true → (hex_to_ass code op).length = 10) ∧
    ((hexToAssChecked code op).isSome ↔ validHex6 code = true) := by
  refine ⟨?_, ?_, ?_⟩
  · refine ⟨assAlpha op ++
      (String.mk (((code.toList.dropWhile fun c => c = '#').drop 4).take 2) ++
        (String.mk (((code.toList.dropWhile fun c => c = '#').drop 2).take 2) ++
          String.mk ((code.toList.dropWhile fun c => c = '#').take 2))), ?_⟩
    rw [hex_to_ass_unfold code op]
    rw [String.append_assoc, String.append_assoc, String.append_assoc]
  · intro hv
    rw [validHex6] at hv
    simp only [Bool.and_eq_true, decide_eq_true_eq] at hv
    have hlen : (code.toList.dropWhile fun c => c = '#').length = 6 := hv.1
    rw [hex_to_ass_unfold code op]
    simp only [String.length_append]
    have hA : (assAlpha op).length = 2 := (assAlpha_shape op h0 h1).1
    have hlen' : (List.dropWhile (fun c => decide (c = '#')) code.data).length = 6 := hlen
    have hb : (String.mk (((code.toList.dropWhile fun c => c = '#').drop 4).take 2)).length = 2 := by
      simp [String.length, List.length_take, List.length_drop, hlen']
    have hg : (String.mk (((code.toList.dropWhile fun c => c = '#').drop 2).take 2)).length = 2 := by
      simp [String.length, List.length_take, List.length_drop, hlen']
    have hr : (String.mk ((code.toList.dropWhile fun c => c = '#').take 2)).length = 2 := by
      simp [String.length, List.length_take, hlen']
    rw [hA, hb, hg, hr]
    rfl
  · by_cases hv : validHex6 code <;> simp [hexToAssChecked, hv]

theorem color_encoder_total_witness : (hex_to_ass "FF0000" 100).length = 10 :=
  (color_encoder_total "FF0000" 100 (by norm_num) (by norm_num)).2.1 (by decide)

/-! Watermark escaping and the filter string. -/

theorem pyReplaceChar_append (pat : Char) (sub : List Char) :
    ∀ l1 l2 : List Char,
      pyReplaceChar pat sub (l1 ++ l2) =
        pyReplaceChar pat sub l1 ++ pyReplaceChar pat sub l2 := by
  intro l1 l2
  induction l1 with
  | nil => rfl
  | cons c cs ih => simp [pyReplaceChar, ih]

theorem escapeWatermark_eq_bind (s : String) :
    (escapeWatermark s).toList = s.toList.flatMap escBlock := by
  show pyReplaceChar ':' ['\\', ':'] (pyReplaceChar '\'' ['\\', '\''] s.toList) =
    s.toList.flatMap escBlock
  induction s.toList with
  | nil => rfl
  | cons c cs ih =>
    rw [List.flatMap_cons]
    show pyReplaceChar ':' ['\\', ':']
        ((if c = '\'' then ['\\', '\''] else [c]) ++ pyReplaceChar '\'' ['\\', '\''] cs) =
      escBlock c ++ cs.flatMap escBlock
    rw [pyReplaceChar_append, ih]
    by_cases h1 : c = '\''
    · subst h1
      rfl
    · by_cases h2 : c = ':'
      · subst h2
        rfl
      · simp [pyReplaceChar, escBlock, h1, h2]

theorem escBlock_bind_good : ∀ l : List Char,
    (∀ c ∈ (l.flatMap escBlock).head?, ¬(c = '\'' ∨ c = ':')) ∧
    (l.flatMap escBlock).Chain' (fun a b => (b = '\'' ∨ b = ':') → a = '\\') := by
  intro l
  induction l with
  | nil => exact ⟨by simp, by simp⟩
  | cons c cs ih =>
    obtain ⟨ihh, ihc⟩ := ih
    rw [List.flatMap_cons]
    by_cases h1 : c = '\''
    · subst h1
      show (∀ x ∈ ('\\' :: '\'' :: cs.flatMap escBlock).head?, ¬(x = '\'' ∨ x = ':')) ∧
        List.Chain' (fun a b => (b = '\'' ∨ b = ':') → a = '\\')
          ('\\' :: '\'' :: cs.flatMap escBlock)
      refine ⟨by simp, ?_⟩
      rw [List.chain'_cons']
      refine ⟨by simp, ?_⟩
      rw [List.chain'_cons']
      refine ⟨?_, ihc⟩
      intro y hy hspec
      exact absurd hspec (ihh y hy)
    · by_cases h2 : c = ':'
      · subst h2
        show (∀ x ∈ ('\\' :: ':' :: cs.flatMap escBlock).head?, ¬(x = '\'' ∨ x = ':')) ∧
          List.Chain' (fun a b => (b = '\'' ∨ b = ':') → a = '\\')
            ('\\' :: ':' :: cs.flatMap escBlock)
        refine ⟨by simp, ?_⟩
        rw [List.chain'_cons']
        refine ⟨by simp, ?_⟩
        rw [List.chain'_cons']
        refine ⟨?_, ihc⟩
        intro y hy hspec
        exact absurd hspec (ihh y hy)
      · have he : escBlock c = [c] := by simp [escBlock, h1, h2]
        rw [he, List.singleton_append]
        refine ⟨?_, ?_⟩
        · intro x hx
          simp at hx
          subst hx
          simp [h1, h2]
        · rw [List.chain'_cons']
          refine ⟨?_, ihc⟩
          intro y hy hspec
          exact absurd hspec (ihh y hy)

/-- C8: the builder yields a single filter string
`[scale,]subtitles=path:force_style=...[,drawtext=...]`; an empty
watermark appends no drawtext fragment; a non-empty watermark is
interpolated with the fixed white top-right 20-unit-margin drawtext at
the given opacity, its text escaped so that in the escaped text every
single quote and every colon is immediately preceded by a backslash
(and nothing escaped is dropped: the escaped text is the
character-by-character expansion of the original). -/
theorem overlay_spec_builder :
    ∀ (scale path style wm wmOp : String) (size : ℕ),
      (wm = "" → buildVf scale path style wm wmOp size =
        scale ++ "subtitles=" ++ path ++ ":force_style='" ++ style ++ "'") ∧
      (wm ≠ "" → buildVf scale path style wm wmOp size =
        scale ++ "subtitles=" ++ path ++ ":force_style='" ++ style ++ "'" ++
          ",drawtext=text='" ++ escapeWatermark wm ++ "':fontcolor=white@" ++ wmOp ++
          ":fontsize=" ++ toString size ++ ":x=w-tw-20:y=20") ∧
      (escapeWatermark wm).toList = wm.toList.flatMap escBlock ∧
      (∀ c ∈ (escapeWatermark wm).toList.head?, ¬(c = '\'' ∨ c = ':')) ∧
      (escapeWatermark wm).toList.Chain' (fun a b => (b = '\'' ∨ b = ':') → a = '\\') := by
  intro scale path style wm wmOp size
  refine ⟨?_, ?_, escapeWatermark_eq_bind wm, ?_, ?_⟩
  · intro h
    rw [buildVf, if_pos h]
  · intro h
    rw [buildVf, if_neg h]
  · rw [escapeWatermark_eq_bind]
    exact (escBlock_bind_good wm.toList).1
  · rw [escapeWatermark_eq_bind]
    exact (escBlock_bind_good wm.toList).2

theorem overlay_spec_builder_witness :
    buildVf "" "subs.srt" "S" "a'b:c" "0.5" 24 =
      "" ++ "subtitles=" ++ "subs.srt" ++ ":force_style='" ++ "S" ++ "'" ++
        ",drawtext=text='" ++ escapeWatermark "a'b:c" ++ "':fontcolor=white@" ++ "0.5" ++
        ":fontsize=" ++ toString 24 ++ ":x=w-tw-20:y=20" :=
  (overlay_spec_builder "" "subs.srt" "S" "a'b:c" "0.5" 24).2.1 (by decide)

/-! Timestamp formatting and decoding. -/

theorem pyInt_eq_floor (q : ℚ) (h : 0 ≤ q) : pyInt q = ⌊q⌋ := by
  rw [pyInt, if_neg (not_lt.mpr h)]

theorem strData_append (a b : String) : (a ++ b).data = a.data ++ b.data := rfl

theorem list_eq_two (l : List Char) (h : l.length = 2) (d : Char) :
    l = [l.getD 0 d, l.getD 1 d] := by
  rcases l with _ | ⟨a, t⟩
  · simp at h
  rcases t with _ | ⟨b, t2⟩
  · simp at h
  rcases t2 with _ | ⟨c, t3⟩
  · rfl
  · simp at h

theorem list_eq_three (l : List Char) (h : l.length = 3) (d : Char) :
    l = [l.getD 0 d, l.getD 1 d, l.getD 2 d] := by
  rcases l with _ | ⟨a, t⟩
  · simp at h
  rcases t with _ | ⟨b, t2⟩
  · simp at h
  rcases t2 with _ | ⟨c, t3⟩
  · simp at h
  rcases t3 with _ | ⟨e, t4⟩
  · rfl
  · simp at h

set_option maxRecDepth 4000 in
theorem pyFmt2_spec : ∀ n : ℕ, n < 100 →
    (pyFmtInt 2 (n : ℤ)).data.length = 2 ∧
    ((pyFmtInt 2 (n : ℤ)).data.getD 0 ' ').isDigit = true ∧
    ((pyFmtInt 2 (n : ℤ)).data.getD 1 ' ').isDigit = true ∧
    10 * digitVal ((pyFmtInt 2 (n : ℤ)).data.getD 0 ' ') +
      digitVal ((pyFmtInt 2 (n : ℤ)).data.getD 1 ' ') = n := by decide

set_option maxRecDepth 8000 in
theorem pyFmt3_spec : ∀ n : ℕ, n < 1000 →
    (pyFmtInt 3 (n : ℤ)).data.length = 3 ∧
    ((pyFmtInt 3 (n : ℤ)).data.getD 0 ' ').isDigit = true ∧
    ((pyFmtInt 3 (n : ℤ)).data.getD 1 ' ').isDigit = true ∧
    ((pyFmtInt 3 (n : ℤ)).data.getD 2 ' ').isDigit = true ∧
    100 * digitVal ((pyFmtInt 3 (n : ℤ)).data.getD 0 ' ') +
      10 * digitVal ((pyFmtInt 3 (n : ℤ)).data.getD 1 ' ') +
      digitVal ((pyFmtInt 3 (n : ℤ)).data.getD 2 ' ') = n := by decide

theorem decodeTimestamp_mk (a0 a1 b0 b1 p0 p1 d0 d1 d2 : Char)
    (ha0 : a0.isDigit = true) (ha1 : a1.isDigit = true)
    (hb0 : b0.isDigit = true) (hb1 : b1.isDigit = true)
    (hp0 : p0.isDigit = true) (hp1 : p1.isDigit = true)
    (hd0 : d0.isDigit = true) (hd1 : d1.isDigit = true) (hd2 : d2.isDigit = true) :
    decodeTimestamp (String.mk [a0, a1, ':', b0, b1, ':', p0, p1, ',', d0, d1, d2]) =
      some ((3600 * (10 * digitVal a0 + digitVal a1) +
          60 * (10 * digitVal b0 + digitVal b1) +
          (10 * digitVal p0 + digitVal p1) : ℕ) +
        ((100 * digitVal d0 + 10 * digitVal d1 + digitVal d2 : ℕ) : ℚ) / 1000) := by
  show (if (':' : Char) = ':' ∧ (':' : Char) = ':' ∧ (',' : Char) = ',' ∧
      a0.isDigit ∧ a1.isDigit ∧ b0.isDigit ∧ b1.isDigit ∧
      p0.isDigit ∧ p1.isDigit ∧ d0.isDigit ∧ d1.isDigit ∧ d2.isDigit then
      some ((3600 * (10 * digitVal a0 + digitVal a1) +
          60 * (10 * digitVal b0 + digitVal b1) +
          (10 * digitVal p0 + digitVal p1) : ℕ) +
        ((100 * digitVal d0 + 10 * digitVal d1 + digitVal d2 : ℕ) : ℚ) / 1000)
    else none) = _
  rw [if_pos ⟨rfl, rfl, rfl, ha0, ha1, hb0, hb1, hp0, hp1, hd0, hd1, hd2⟩]

theorem floor_div_bounds (x : ℚ) (b : ℚ) (hb : 0 < b) (hx0 : 0 ≤ x) :
    0 ≤ ⌊x / b⌋ ∧ (⌊x / b⌋ : ℚ) * b ≤ x ∧ x - b * ⌊x / b⌋ < b := by
  have h1 : (0:ℚ) ≤ x / b := by positivity
  have h2 : (⌊x / b⌋ : ℚ) ≤ x / b := Int.floor_le _
  have h3 : x / b < ⌊x / b⌋ + 1 := Int.lt_floor_add_one _
  refine ⟨Int.floor_nonneg.mpr h1, ?_, ?_⟩
  · calc (⌊x / b⌋ : ℚ) * b ≤ x / b * b := by
          exact mul_le_mul_of_nonneg_right h2 (le_of_lt hb)
      _ = x := div_mul_cancel₀ x (ne_of_gt hb)
  · have h4 : x < (⌊x / b⌋ + 1) * b := by
      calc x = x / b * b := (div_mul_cancel₀ x (ne_of_gt hb)).symm
        _ < (⌊x / b⌋ + 1) * b := by
            exact mul_lt_mul_of_pos_right h3 hb
    nlinarith [h4]

/-- C9: for every second count `s` in `[0, 359999.999]` the formatter
produces a string that the `HH:MM:SS,mmm` decoder accepts (so the
string matches the two-digit/two-digit/two-digit/three-digit pattern
with zero-padded components), and decoding yields `s` truncated to
millisecond precision; a null input is formatted as `0.0`. -/
theorem timestamp_round_trip :
    ∀ s : ℚ, 0 ≤ s → s ≤ (359999999 : ℚ) / 1000 →
      decodeTimestamp (format_timestamp (some s)) =
        some ((⌊1000 * s⌋ : ℚ) / 1000) ∧
      format_timestamp none = format_timestamp (some 0) := by
  intro s h0 h1
  refine ⟨?_, rfl⟩
  set hh : ℤ := ⌊s / 3600⌋ with hhdef
  set rem : ℚ := s - 3600 * hh with remdef
  set mm : ℤ := ⌊rem / 60⌋ with mmdef
  set secs : ℚ := rem - 60 * mm with secsdef
  set isec : ℤ := pyInt secs with isecdef
  set frac : ℚ := secs - isec with fracdef
  set ms : ℤ := pyInt (frac * 1000) with msdef
  have hF : format_timestamp (some s) =
      pyFmtInt 2 hh ++ ":" ++ pyFmtInt 2 mm ++ ":" ++
        pyFmtInt 2 isec ++ "," ++ pyFmtInt 3 ms := by
    simp only [hhdef, remdef, mmdef, secsdef, isecdef, fracdef, msdef]
    rfl
  have hb3600 := floor_div_bounds s 3600 (by norm_num) h0
  rw [← hhdef] at hb3600
  obtain ⟨hh0, hhle, hrem1⟩ := hb3600
  rw [← remdef] at hrem1
  have hrem0 : 0 ≤ rem := by rw [remdef]; nlinarith [hhle]
  have hh99 : hh ≤ 99 := by
    by_contra hcon
    push_neg at hcon
    have hq : (100 : ℚ) ≤ (hh : ℚ) := by exact_mod_cast hcon
    nlinarith [hhle]
  have hb60 := floor_div_bounds rem 60 (by norm_num) hrem0
  rw [← mmdef] at hb60
  obtain ⟨mm0, mmle, hsecs1⟩ := hb60
  rw [← secsdef] at hsecs1
  have hsecs0 : 0 ≤ secs := by rw [secsdef]; nlinarith [mmle]
  have mm59 : mm ≤ 59 := by
    by_contra hcon
    push_neg at hcon
    have hq : (60 : ℚ) ≤ (mm : ℚ) := by exact_mod_cast hcon
    nlinarith [mmle, hrem1]
  have hisec_floor : isec = ⌊secs⌋ := by rw [isecdef, pyInt_eq_floor secs hsecs0]
  have hisec_le : (isec : ℚ) ≤ secs := by rw [hisec_floor]; exact Int.floor_le secs
  have hisec_lt : secs < isec + 1 := by rw [hisec_floor]; exact Int.lt_floor_add_one secs
  have isec0 : 0 ≤ isec := by rw [hisec_floor]; exact Int.floor_nonneg.mpr hsecs0
  have isec59 : isec ≤ 59 := by
    have h60 : (isec : ℚ) < 60 := lt_of_le_of_lt hisec_le hsecs1
    have h60' : isec < 60 := by exact_mod_cast h60
    omega
  have hfrac0 : 0 ≤ frac := by rw [fracdef]; linarith
  have hfrac1 : frac < 1 := by rw [fracdef]; linarith
  have hms_floor : ms = ⌊frac * 1000⌋ := by
    rw [msdef, pyInt_eq_floor _ (by positivity)]
  have ms0 : 0 ≤ ms := by
    rw [hms_floor]
    exact Int.floor_nonneg.mpr (by positivity)
  have ms999 : ms ≤ 999 := by
    have hlt : frac * 1000 < 1000 := by nlinarith
    have hlt' : ms < 1000 := by
      rw [hms_floor]
      exact Int.floor_lt.mpr (by exact_mod_cast hlt)
    omega
  have hhcast : pyFmtInt 2 hh = pyFmtInt 2 ((hh.toNat : ℕ) : ℤ) := by
    rw [Int.toNat_of_nonneg hh0]
  have hmmcast : pyFmtInt 2 mm = pyFmtInt 2 ((mm.toNat : ℕ) : ℤ) := by
    rw [Int.toNat_of_nonneg mm0]
  have hiscast : pyFmtInt 2 isec = pyFmtInt 2 ((isec.toNat : ℕ) : ℤ) := by
    rw [Int.toNat_of_nonneg isec0]
  have hmscast : pyFmtInt 3 ms = pyFmtInt 3 ((ms.toNat : ℕ) : ℤ) := by
    rw [Int.toNat_of_nonneg ms0]
  have specA := pyFmt2_spec hh.toNat (by omega)
  rw [← hhcast] at specA
  obtain ⟨lenA, digA0, digA1, valA⟩ := specA
  have specB := pyFmt2_spec mm.toNat (by omega)
  rw [← hmmcast] at specB
  obtain ⟨lenB, digB0, digB1, valB⟩ := specB
  have specC := pyFmt2_spec isec.toNat (by omega)
  rw [← hiscast] at specC
  obtain ⟨lenC, digC0, digC1, valC⟩ := specC
  have specD := pyFmt3_spec ms.toNat (by omega)
  rw [← hmscast] at specD
  obtain ⟨lenD, digD0, digD1, digD2, valD⟩ := specD
  obtain ⟨a0, a1, hA⟩ : ∃ x y, (pyFmtInt 2 hh).data = [x, y] :=
    ⟨_, _, list_eq_two _ lenA ' '⟩
  obtain ⟨b0, b1, hB⟩ : ∃ x y, (pyFmtInt 2 mm).data = [x, y] :=
    ⟨_, _, list_eq_two _ lenB ' '⟩
  obtain ⟨p0, p1, hC⟩ : ∃ x y, (pyFmtInt 2 isec).data = [x, y] :=
    ⟨_, _, list_eq_two _ lenC ' '⟩
  obtain ⟨d0, d1, d2, hD⟩ : ∃ x y z, (pyFmtInt 3 ms).data = [x, y, z] :=
    ⟨_, _, _, list_eq_three _ lenD ' '⟩
  rw [hA] at digA0 digA1 valA
  rw [hB] at digB0 digB1 valB
  rw [hC] at digC0 digC1 valC
  rw [hD] at digD0 digD1 digD2 valD
  simp only [List.getD_cons_zero,
    List.getD_cons_succ] at digA0 digA1 valA digB0 digB1 valB digC0 digC1 valC digD0 digD1 digD2 valD
  have hdata : (format_timestamp (some s)).data =
      [a0, a1, ':', b0, b1, ':', p0, p1, ',', d0, d1, d2] := by
    rw [hF]
    simp only [strData_append]
    rw [hA, hB, hC, hD]
    rfl
  have hmk : format_timestamp (some s) =
      String.mk [a0, a1, ':', b0, b1, ':', p0, p1, ',', d0, d1, d2] := by
    rw [← hdata]
  rw [hmk, decodeTimestamp_mk a0 a1 b0 b1 p0 p1 d0 d1 d2
    digA0 digA1 digB0 digB1 digC0 digC1 digD0 digD1 digD2]
  congr 1
  rw [valA, valB, valC, valD]
  have hfloor : ⌊(1000 : ℚ) * s⌋ = 1000 * (3600 * hh + 60 * mm + isec) + ms := by
    have hdecomp : (1000 : ℚ) * s =
        ((1000 * (3600 * hh + 60 * mm + isec) : ℤ) : ℚ) + frac * 1000 := by
      rw [fracdef, secsdef, remdef]
      push_cast
      ring
    rw [hdecomp, Int.floor_int_add, ← hms_floor]
  rw [hfloor]
  have e1 : ((hh.toNat : ℕ) : ℚ) = (hh : ℚ) := by
    exact_mod_cast congrArg (fun z : ℤ => (z : ℚ)) (Int.toNat_of_nonneg hh0)
  have e2 : ((mm.toNat : ℕ) : ℚ) = (mm : ℚ) := by
    exact_mod_cast congrArg (fun z : ℤ => (z : ℚ)) (Int.toNat_of_nonneg mm0)
  have e3 : ((isec.toNat : ℕ) : ℚ) = (isec : ℚ) := by
    exact_mod_cast congrArg (fun z : ℤ => (z : ℚ)) (Int.toNat_of_nonneg isec0)
  have e4 : ((ms.toNat : ℕ) : ℚ) = (ms : ℚ) := by
    exact_mod_cast congrArg (fun z : ℤ => (z : ℚ)) (Int.toNat_of_nonneg ms0)
  push_cast
  rw [e1, e2, e3, e4]
  field_simp
  ring

theorem timestamp_round_trip_witness :
    decodeTimestamp (format_timestamp (some ((7323 : ℚ) / 2))) =
      some ((⌊1000 * ((7323 : ℚ) / 2)⌋ : ℚ) / 1000) ∧
    format_timestamp none = format_timestamp (some 0) :=
  timestamp_round_trip ((7323 : ℚ) / 2) (by norm_num) (by norm_num)

end AppPy
